/-
Verification development for the `python-github-stats` repository
(single source file `main.py`).

The script fetches a user's repositories from the GitHub API with a
day-scoped file cache, aggregates per-repository language byte maps
(with a second day-scoped cache), ranks languages with
`Counter.most_common`, prints percentages, and renders a fixed-width
table.

The embedding below has two layers:

* a typed layer, modelling the pipeline after successful JSON decoding
  (repository records, language byte maps as ordered association
  lists — Python dicts preserve insertion order, which is what
  `Counter.most_common`'s stable sort ties break on);
* a JSON-level layer modelling the cache-file loading code paths,
  including which Python exceptions are caught by which handlers,
  used for the cache-corruption claims.
-/
import Mathlib

namespace GithubStats

/-- A repository record, as produced by decoding one element of the
GitHub `/users/{user}/repos` response (or of the cached `"repos"`
payload).  Only the fields `main.py` reads are modelled:
`name`, `full_name`, `fork`, `languages_url`. -/
structure Repo where
  name : String
  full_name : String
  fork : Bool
  languages_url : String
deriving Repr, DecidableEq

/-- A language byte map: the decoded JSON object returned by a
repository's `languages_url`, as an ordered association list
(Python dicts preserve key insertion order). -/
abbrev LangMap := List (String × Nat)

/-- Ordered association-list lookup, modelling Python `d.get(k)` /
`k in d` on a dict represented as an insertion-ordered list. -/
def alookup (k : String) : List (String × α) → Option α
  | [] => none
  | (k', v) :: rest => if k' = k then some v else alookup k rest

/-- One key step of `collections.Counter.update(mapping)`
(`main.py` line 127): `self[k] = self.get(k, 0) + v`.  If `k` is
already present its count is increased in place (the dict keeps the
key's original position); otherwise `(k, v)` is appended at the end,
so a language's position records when it was first encountered. -/
def counterAdd (c : List (String × Nat)) (k : String) (v : Nat) :
    List (String × Nat) :=
  match c with
  | [] => [(k, v)]
  | (k', v') :: rest =>
    if k' = k then (k', v' + v) :: rest else (k', v') :: counterAdd rest k v

/-- `Counter.update(mapping)` (`main.py` line 127,
`total_language_bytes.update(languages_data)`): fold `counterAdd`
over the mapping's items in their insertion order. -/
def counterUpdate (c : List (String × Nat)) (m : LangMap) :
    List (String × Nat) :=
  m.foldl (fun acc kv => counterAdd acc kv.1 kv.2) c

/-- The fork filter of `main.py` lines 101-102 and 177-178: a
repository is processed unless `not with_forks and repo["fork"]`. -/
def qualifies (withForks : Bool) (r : Repo) : Bool :=
  withForks || !r.fork

/-- State accumulated by the aggregation loop of `main.py`
lines 97-127: the running `Counter` of byte totals, the in-memory
languages cache (`languages_cache["languages"]`, an ordered dict from
repository full name to its language map), the `cache_updated` flag,
and the list of full names whose language map was requested from the
API (each `requests.get(repo["languages_url"], ...)`). -/
structure AggResult where
  totals : List (String × Nat)
  cache : List (String × LangMap)
  cacheUpdated : Bool
  fetched : List String
deriving Repr, DecidableEq

/-- The body of the `for repo in repos` loop, `main.py` lines 100-127:
skip non-qualifying forks; use the cached language map when the full
name is in the cache; otherwise fetch from the API (`net` maps a
`languages_url` to `some` decoded map on success, `none` on an
`HTTPError`, which is caught: the repository then contributes the
empty map `{}` and is not written to the cache). -/
def aggregateStep (net : String → Option LangMap) (withForks : Bool)
    (acc : AggResult) (repo : Repo) : AggResult :=
  if !withForks && repo.fork then acc
  else
    match alookup repo.full_name acc.cache with
    | some m => { acc with totals := counterUpdate acc.totals m }
    | none =>
      match net repo.languages_url with
      | some m =>
        { totals := counterUpdate acc.totals m
          cache := acc.cache ++ [(repo.full_name, m)]
          cacheUpdated := true
          fetched := acc.fetched ++ [repo.full_name] }
      | none =>
        { acc with
            totals := counterUpdate acc.totals []
            fetched := acc.fetched ++ [repo.full_name] }

/-- The aggregation loop over the repository list (`main.py`
lines 100-127), as explicit recursion. -/
def aggregate (net : String → Option LangMap) (withForks : Bool) :
    List Repo → AggResult → AggResult
  | [], acc => acc
  | repo :: rest, acc =>
    aggregate net withForks rest (aggregateStep net withForks acc repo)

/-- A whole aggregation run (`main.py` lines 97-127): start from an
empty `Counter`, the loaded languages cache `cache0`, and
`cache_updated = False`. -/
def aggregateRun (net : String → Option LangMap) (withForks : Bool)
    (repos : List Repo) (cache0 : List (String × LangMap)) : AggResult :=
  aggregate net withForks repos ⟨[], cache0, false, []⟩

/-- Stable descending insertion by count: place `x` before the first
element whose count is strictly smaller, after every element whose
count is greater or equal.  This is the placement discipline of
CPython's stable `sorted(..., reverse=True)` /
`heapq.nlargest(n, items, key=itemgetter(1))`. -/
def insertByCountDesc (x : String × Nat) :
    List (String × Nat) → List (String × Nat)
  | [] => [x]
  | y :: ys => if x.2 > y.2 then x :: y :: ys else y :: insertByCountDesc x ys

/-- Stable sort of counter items by descending count, processing
items in their insertion order (left to right), so equal-count items
keep their relative order. -/
def sortByCountDesc (l : List (String × Nat)) : List (String × Nat) :=
  l.foldl (fun acc x => insertByCountDesc x acc) []

/-- `Counter.most_common(n)` (`main.py` line 143): CPython documents
`heapq.nlargest(n, self.items(), key=itemgetter(1))` as equivalent to
`sorted(self.items(), key=itemgetter(1), reverse=True)[:n]`, a stable
descending sort over the counter's insertion order, truncated to `n`. -/
def most_common (n : Nat) (c : List (String × Nat)) : List (String × Nat) :=
  (sortByCountDesc c).take n

/-- `total_bytes = sum(total_language_bytes.values())`
(`main.py` line 140): the denominator sums ALL aggregated languages,
before any truncation to the top N. -/
def totalBytes (totals : List (String × Nat)) : Nat :=
  (totals.map Prod.snd).sum

/-- `percentage = (byte_count / total_bytes) * 100`
(`main.py` line 145), in exact rational arithmetic. -/
def percentage (byteCount totalB : Nat) : ℚ :=
  (byteCount : ℚ) / (totalB : ℚ) * 100

/-- The displayed summary (`main.py` lines 143-146): the top-`n`
entries paired with their percentages, whose denominator is the total
over all aggregated languages. -/
def summaryReport (n : Nat) (totals : List (String × Nat)) :
    List (String × Nat × ℚ) :=
  (most_common n totals).map
    (fun e => (e.1, e.2, percentage e.2 (totalBytes totals)))

/-- `API_URL` (`main.py` line 22). -/
def API_URL : String := "https://api.github.com"

/-- The repository-listing request URL
(`main.py` line 71): `f"{API_URL}/users/{USERNAME}/repos?per_page=100&page={page}"` —
every page request asks for up to 100 repositories. -/
def reposPageUrl (user : String) (page : Nat) : String :=
  API_URL ++ "/users/" ++ user ++ "/repos?per_page=100&page=" ++ toString page

/-- Outcome of the paginated fetch loop: success with the
concatenated repository list, an uncaught `HTTPError` raised by
`response.raise_for_status()` (`main.py` line 73), or fuel
exhaustion (the Python loop would still be running). -/
inductive FetchOutcome where
  | ok (repos : List Repo)
  | httpError
  | outOfFuel
deriving Repr, DecidableEq

/-- The fetch loop of `main.py` lines 68-77: request page after page
(`net` maps a request URL to `some` decoded page on success, `none`
on a non-success status), stop at the first empty page, concatenate
pages in server order.  An `HTTPError` propagates immediately: no
further page is requested and no partial list is produced.  Returns
the outcome together with the list of URLs requested, in order.
`fuel` bounds the number of iterations (the Python loop is unbounded). -/
def fetchPages (net : String → Option (List Repo)) (user : String) :
    Nat → Nat → FetchOutcome × List String
  | 0, _ => (.outOfFuel, [])
  | fuel + 1, page =>
    match net (reposPageUrl user page) with
    | none => (.httpError, [reposPageUrl user page])
    | some [] => (.ok [], [reposPageUrl user page])
    | some rs =>
      let rec_ := fetchPages net user fuel (page + 1)
      (match rec_.1 with
       | .ok rest => .ok (rs ++ rest)
       | e => e,
       reposPageUrl user page :: rec_.2)

/-- The cache check of `main.py` lines 54-64, after JSON decoding:
`cacheFile` is the decoded repositories cache file (`none` when the
file is absent; corruption is handled by the JSON-level layer
below).  The cached list counts only when its date equals today. -/
def cachedRepos (cacheFile : Option (String × List Repo)) (today : String) :
    List Repo :=
  match cacheFile with
  | some (d, rs) => if d = today then rs else []
  | none => []

/-- The repository lister, `main.py` lines 51-80, after JSON
decoding.  If the cached date equals today and the cached list is
non-empty, it is returned verbatim with no request and no cache
write (`if not repos` at line 67 sends an empty cached list back to
the API).  Otherwise pages are fetched starting at page 1 and, on
success, the full list is written to the cache under today's date
(lines 78-80) before the function's result is used.  Returns
(outcome, requested URLs in order, cache write). -/
def listRepositories (net : String → Option (List Repo)) (user : String)
    (fuel : Nat) (cacheFile : Option (String × List Repo)) (today : String) :
    FetchOutcome × List String × Option (String × List Repo) :=
  let cached := cachedRepos cacheFile today
  if cached.isEmpty then
    match fetchPages net user fuel 1 with
    | (.ok rs, reqs) => (.ok rs, reqs, some (today, rs))
    | (e, reqs) => (e, reqs, none)
  else
    (.ok cached, [], none)

/-- Python `str.ljust(w)` (`main.py` lines 206 and 215): pad with
spaces on the right up to width `w`; a string already at least that
wide is returned unchanged. -/
def pyLjust (s : String) (w : Nat) : String :=
  s ++ String.mk (List.replicate (w - s.length) ' ')

/-- The table header, `main.py` line 172:
`["Repository"] + top_language_names`. -/
def tableHeader (topNames : List String) : List String :=
  "Repository" :: topNames

/-- One data row of the table, `main.py` lines 180-188: the
repository's display name followed by, for each top language,
`str(repo_langs.get(lang, 0))` where `repo_langs` is
`languages_cache["languages"].get(repo_full_name, {})`. -/
def tableRow (langs : List (String × LangMap)) (topNames : List String)
    (repo : Repo) : List String :=
  let repoLangs := (alookup repo.full_name langs).getD []
  repo.name :: topNames.map (fun lang => toString ((alookup lang repoLangs).getD 0))

/-- The collected data rows, `main.py` lines 175-190: one row per
repository passing the same fork filter as aggregation. -/
def tableRows (repos : List Repo) (langs : List (String × LangMap))
    (topNames : List String) (withForks : Bool) : List (List String) :=
  (repos.filter (qualifies withForks)).map (tableRow langs topNames)

/-- One pass of the width computation, `main.py` lines 197-200:
`if len(cell) > col_widths[i]: col_widths[i] = len(cell)` — i.e. a
pointwise maximum.  Every row has exactly `header.length` cells, so
the `zipWith` covers each column. -/
def updWidths (ws : List Nat) (row : List String) : List Nat :=
  List.zipWith (fun w c => if c.length > w then c.length else w) ws row

/-- Column widths, `main.py` lines 196-200: start from the header
cell lengths and fold the rows through the pointwise maximum. -/
def colWidths (header : List String) (rows : List (List String)) : List Nat :=
  rows.foldl updWidths (header.map String.length)

/-- A header or data line, `main.py` lines 206 and 215:
cells left-justified to their column widths, joined by `" | "`. -/
def tableLine (ws : List Nat) (cells : List String) : String :=
  String.intercalate " | " (List.zipWith (fun c w => pyLjust c w) cells ws)

/-- The dashed separator, `main.py` line 210:
`"-+-".join("-" * width for width in col_widths)`. -/
def tableSeparator (ws : List Nat) : String :=
  String.intercalate "-+-" (ws.map (fun w => String.mk (List.replicate w '-')))

/-- `build_language_table` (`main.py` lines 154-218).  The header is
always non-empty, so the `if not (rows and header)` guard at
line 193 fires exactly when there is no qualifying repository. -/
def build_language_table (repos : List Repo) (langs : List (String × LangMap))
    (topNames : List String) (withForks : Bool) : String :=
  let header := tableHeader topNames
  let rows := tableRows repos langs topNames withForks
  if rows.isEmpty then "No data to display in table."
  else
    let ws := colWidths header rows
    String.intercalate "\n"
      (tableLine ws header :: tableSeparator ws :: rows.map (tableLine ws))

/-! ## JSON-level layer: cache-file loading and its exception paths -/

/-- A decoded JSON value, as returned by `json.load`.  Objects keep
their key order.  Only the shapes the cache code can meet are
modelled (numbers are the non-negative byte counts of the language
payloads). -/
inductive Json where
  | obj : List (String × Json) → Json
  | arr : List Json → Json
  | str : String → Json
  | num : Nat → Json
deriving Repr

/-- The Python exceptions the cache code can raise or catch. -/
inductive PyErr where
  | keyError
  | attributeError
  | typeError
deriving Repr, DecidableEq

/-- Association lookup inside a JSON object's field list. -/
def alookupJ (k : String) : List (String × Json) → Option Json
  | [] => none
  | (k', v) :: rest => if k' = k then some v else alookupJ k rest

/-- The repositories-cache load, `main.py` lines 54-64, returning the
value bound to `repos` afterwards (as JSON; `Json.arr []` is the
initial empty list).  `file = none`: no cache file on disk.
`file = some none`: the file exists but `json.load` raises
`JSONDecodeError`, caught at line 62.  A decoded non-object makes
`cache_data.get("date")` (line 59) raise `AttributeError`, which the
`except (json.JSONDecodeError, KeyError)` handler does NOT catch, so
it propagates and halts the run.  A dated object without a `"repos"`
key raises `KeyError` at line 61, which IS caught (`repos = []`). -/
def loadReposCache (file : Option (Option Json)) (today : String) :
    Except PyErr Json :=
  match file with
  | none => Except.ok (Json.arr [])
  | some none => Except.ok (Json.arr [])
  | some (some j) =>
    match j with
    | Json.obj kvs =>
      match alookupJ "date" kvs with
      | some (Json.str d) =>
        if d = today then
          match alookupJ "repos" kvs with
          | some v => Except.ok v
          | none => Except.ok (Json.arr [])
        else Except.ok (Json.arr [])
      | _ => Except.ok (Json.arr [])
    | _ => Except.error PyErr.attributeError

/-- The languages-cache load, `main.py` lines 82-92, returning the
value bound to `languages_cache` afterwards.  The default is
`{"date": today, "languages": {}}` (line 83).  A decode failure is
caught at line 91 and leaves the default.  The `try` body only uses
`loaded_cache.get`, so no `KeyError` can occur there; in particular a
dated object MISSING the `"languages"` key is accepted as-is.  A
decoded non-object raises `AttributeError` at line 88, uncaught. -/
def loadLanguagesCache (file : Option (Option Json)) (today : String) :
    Except PyErr Json :=
  let dflt : Json := Json.obj [("date", Json.str today), ("languages", Json.obj [])]
  match file with
  | none => Except.ok dflt
  | some none => Except.ok dflt
  | some (some j) =>
    match j with
    | Json.obj kvs =>
      match alookupJ "date" kvs with
      | some (Json.str d) => if d = today then Except.ok j else Except.ok dflt
      | _ => Except.ok dflt
    | _ => Except.error PyErr.attributeError

/-- `languages_cache["languages"]` followed by the membership test
and indexing of `main.py` lines 107-108: raises `KeyError` when the
loaded cache object has no `"languages"` key — an exception no
handler in `get_top_languages` catches (the inner `try` at line 113
catches only `requests.exceptions.HTTPError`).  A non-object
`"languages"` value makes the `in` test of line 107 fail with a
`TypeError` (for the number/object payloads this model can hold). -/
def cacheLangLookup (languagesCache : Json) (fullName : String) :
    Except PyErr (Option Json) :=
  match languagesCache with
  | Json.obj kvs =>
    match alookupJ "languages" kvs with
    | none => Except.error PyErr.keyError
    | some (Json.obj langs) => Except.ok (alookupJ fullName langs)
    | some _ => Except.error PyErr.typeError
  | _ => Except.error PyErr.typeError

/-- Decoding a cached language-map value for `Counter.update`
(`main.py` line 127).  The GitHub languages endpoint returns an
object of non-negative integers; other shapes fail the arithmetic
inside `Counter.update`. -/
def jsonToLangMap : Json → Except PyErr LangMap
  | Json.obj kvs =>
    kvs.foldr
      (fun kv acc =>
        match kv.2, acc with
        | Json.num n, Except.ok rest => Except.ok ((kv.1, n) :: rest)
        | _, Except.ok _ => Except.error PyErr.typeError
        | _, e => e)
      (Except.ok [])
  | _ => Except.error PyErr.typeError

/-- Encoding a freshly fetched language map for storage in the cache
object (`languages_cache["languages"][repo_full_name] = languages_data`,
`main.py` line 121). -/
def langMapToJson (m : LangMap) : Json :=
  Json.obj (m.map (fun kv => (kv.1, Json.num kv.2)))

/-- Writing a fetched map into the loaded cache JSON, `main.py`
line 121.  Only reached after `cacheLangLookup` returned
`Except.ok none`, so the cache is an object with an object-valued
`"languages"` key and the full name is absent: the new entry is
appended. -/
def jsonAddLang (cacheJson : Json) (fullName : String) (v : Json) :
    Except PyErr Json :=
  match cacheJson with
  | Json.obj kvs =>
    match alookupJ "languages" kvs with
    | some (Json.obj langs) =>
      Except.ok (Json.obj (kvs.map (fun kv =>
        if kv.1 = "languages" then (kv.1, Json.obj (langs ++ [(fullName, v)]))
        else kv)))
    | some _ => Except.error PyErr.typeError
    | none => Except.error PyErr.keyError
  | _ => Except.error PyErr.typeError

/-- The aggregation loop of `main.py` lines 97-127 run over the
JSON-level languages cache: the analogue of `aggregate` that keeps
the cache as the loaded JSON value, so the uncaught exceptions of
`cacheLangLookup` propagate exactly as in Python. -/
def step4Json (net : String → Option LangMap) (withForks : Bool) :
    List Repo → Json → List (String × Nat) → Bool →
    Except PyErr (List (String × Nat) × Json × Bool)
  | [], cacheJson, totals, updated => Except.ok (totals, cacheJson, updated)
  | repo :: rest, cacheJson, totals, updated =>
    if !withForks && repo.fork then
      step4Json net withForks rest cacheJson totals updated
    else
      match cacheLangLookup cacheJson repo.full_name with
      | Except.error e => Except.error e
      | Except.ok (some data) =>
        match jsonToLangMap data with
        | Except.error e => Except.error e
        | Except.ok m =>
          step4Json net withForks rest cacheJson (counterUpdate totals m) updated
      | Except.ok none =>
        match net repo.languages_url with
        | some m =>
          match jsonAddLang cacheJson repo.full_name (langMapToJson m) with
          | Except.error e => Except.error e
          | Except.ok cacheJson' =>
            step4Json net withForks rest cacheJson' (counterUpdate totals m) true
        | none => step4Json net withForks rest cacheJson totals updated

/-- The languages segment of `get_top_languages` (`main.py`
lines 82-127): load the languages cache file, then aggregate. -/
def langsPipeline (file : Option (Option Json)) (today : String)
    (net : String → Option LangMap) (withForks : Bool) (repos : List Repo) :
    Except PyErr (List (String × Nat) × Json × Bool) :=
  match loadLanguagesCache file today with
  | Except.error e => Except.error e
  | Except.ok cacheJson => step4Json net withForks repos cacheJson [] false

/-! ## Specification-side predicates -/

/-- The languages cache agrees with the live network (`urlOf` maps a
repository full name to its `languages_url`): every cached entry is
exactly what fetching that repository today would return.  This is
the state the cache is in when it was produced by earlier runs of
the same day against the same (deterministic, day-stable) API. -/
abbrev cacheCoherent (urlOf : String → String) (net : String → Option LangMap)
    (cache : List (String × LangMap)) : Prop :=
  ∀ p ∈ cache, net (urlOf p.1) = some p.2

/-- Each repository record's `languages_url` is determined by its
full name (true of the GitHub API, where the URL embeds the full
name). -/
abbrev wellNamed (urlOf : String → String) (repos : List Repo) : Prop :=
  ∀ r ∈ repos, r.languages_url = urlOf r.full_name

/-! ## Concrete fixtures

Small concrete inputs mirroring the scenario in the project
documentation (a non-fork repository `u/a` with Go 300 / Python 100
bytes, a fork `u/b` with Go 200 bytes, and a repository `u/c` whose
language fetch fails).  They instantiate the theorems below on
evaluable data. -/

def repoA : Repo :=
  ⟨"a", "u/a", false, "https://api.github.com/repos/u/a/languages"⟩

def repoB : Repo :=
  ⟨"b", "u/b", true, "https://api.github.com/repos/u/b/languages"⟩

def repoC : Repo :=
  ⟨"c", "u/c", false, "https://api.github.com/repos/u/c/languages"⟩

/-- The full name determines the languages URL, as on the real API. -/
def urlOfEx : String → String :=
  fun fn => "https://api.github.com/repos/" ++ fn ++ "/languages"

/-- A deterministic language endpoint: `u/a` and `u/b` resolve,
`u/c` (and anything else) gets a non-success response. -/
def netEx : String → Option LangMap :=
  fun u =>
    if u = "https://api.github.com/repos/u/a/languages" then
      some [("Go", 300), ("Python", 100)]
    else if u = "https://api.github.com/repos/u/b/languages" then
      some [("Go", 200)]
    else none

/-- A languages cache holding exactly what fetching `u/a` returns. -/
def cacheEx : List (String × LangMap) :=
  [("u/a", [("Go", 300), ("Python", 100)])]

/-- Page contents for the listing fixtures: one non-empty page. -/
def pageContentEx : Nat → List Repo :=
  fun p => if p = 1 then [repoA, repoB] else []

/-- A listing endpoint: page 1 non-empty, page 2 empty. -/
def pagesNetEx : String → Option (List Repo) :=
  fun u =>
    if u = reposPageUrl "u" 1 then some [repoA, repoB]
    else if u = reposPageUrl "u" 2 then some []
    else none

/-- A listing endpoint whose very first page request fails. -/
def failNetEx : String → Option (List Repo) :=
  fun u => if u = reposPageUrl "u" 1 then none else some []

/-! ## Helper lemmas -/

theorem alookup_append (k : String) (c d : List (String × α)) :
    alookup k (c ++ d) =
      match alookup k c with
      | some v => some v
      | none => alookup k d := by
  induction c with
  | nil => simp [alookup]
  | cons p rest ih =>
    by_cases h : p.1 = k
    · simp [alookup, h]
    · simpa [alookup, h] using ih

theorem alookup_eq_some_mem {k : String} {c : List (String × α)} {m : α}
    (h : alookup k c = some m) : (k, m) ∈ c := by
  induction c with
  | nil => simp [alookup] at h
  | cons p rest ih =>
    by_cases hk : p.1 = k
    · simp [alookup, hk] at h
      cases p
      simp_all
    · simp [alookup, hk] at h
      exact List.mem_cons_of_mem _ (ih h)

theorem counterUpdate_nil (c : List (String × Nat)) :
    counterUpdate c [] = c := rfl

/-- The fork-skip guard of `main.py` lines 101-102 is the negation of
`qualifies`. -/
theorem skip_guard_eq_not_qualifies (withForks : Bool) (r : Repo) :
    (!withForks && r.fork) = !(qualifies withForks r) := by
  cases withForks <;> cases h : r.fork <;> simp [qualifies, h]

theorem aggregateStep_of_not_qualifies {withForks : Bool} {r : Repo}
    (h : qualifies withForks r = false)
    (net : String → Option LangMap) (acc : AggResult) :
    aggregateStep net withForks acc r = acc := by
  unfold aggregateStep
  rw [skip_guard_eq_not_qualifies, h]
  rfl

/-- Only qualifying repositories influence the aggregation loop:
running it over the fork-filtered list gives the same result. -/
theorem aggregate_eq_aggregate_filter (net : String → Option LangMap)
    (withForks : Bool) :
    ∀ (repos : List Repo) (acc : AggResult),
      aggregate net withForks repos acc =
        aggregate net withForks (repos.filter (qualifies withForks)) acc := by
  intro repos
  induction repos with
  | nil => intro acc; rfl
  | cons r rs ih =>
    intro acc
    by_cases h : qualifies withForks r = true
    · rw [List.filter_cons_of_pos h]
      simp only [aggregate]
      exact ih _
    · rw [List.filter_cons_of_neg (by simp_all)]
      simp only [aggregate]
      rw [aggregateStep_of_not_qualifies (Bool.eq_false_iff.mpr h) net acc]
      exact ih _

/-- Successful pagination: when pages `page, …, page+k-1` are
non-empty, and page `page+k` is empty, the loop requests exactly
those `k+1` pages in order and returns their concatenation. -/
theorem fetchPages_ok (net : String → Option (List Repo)) (user : String)
    (pageContent : Nat → List Repo) :
    ∀ (k page fuel : Nat),
      (∀ i, i < k → net (reposPageUrl user (page + i)) = some (pageContent (page + i)) ∧
        pageContent (page + i) ≠ []) →
      net (reposPageUrl user (page + k)) = some [] →
      k < fuel →
      fetchPages net user fuel page =
        (.ok ((List.range' page k).flatMap pageContent),
         (List.range' page (k + 1)).map (reposPageUrl user)) := by
  intro k
  induction k with
  | zero =>
    intro page fuel h hk hfuel
    match fuel, hfuel with
    | f + 1, _ =>
      simp only [Nat.add_zero] at hk
      simp [fetchPages, hk, List.range'_succ, List.range']
  | succ k ih =>
    intro page fuel h hk hfuel
    match fuel, hfuel with
    | f + 1, hf =>
      have h0 := h 0 (Nat.succ_pos k)
      simp only [Nat.add_zero] at h0
      have hrec := ih (page + 1) f
        (fun i hi => by
          have := h (i + 1) (by omega)
          have harith : page + (i + 1) = page + 1 + i := by omega
          rw [harith] at this
          exact this)
        (by
          have harith : page + (k + 1) = page + 1 + k := by omega
          rw [harith] at hk
          exact hk)
        (by omega)
      match hpc : pageContent page with
      | [] => exact absurd hpc h0.2
      | x :: xs =>
        rw [hpc] at h0
        simp only [fetchPages, h0.1, hrec]
        simp [hpc, List.range'_succ]


/-- Failing pagination: when pages `page, …, page+k-1` are non-empty
and the request for page `page+k` gets a non-success response, the
loop propagates the `HTTPError` after having requested exactly those
`k+1` pages, each once, and produces no repository list. -/
theorem fetchPages_error (net : String → Option (List Repo)) (user : String)
    (pageContent : Nat → List Repo) :
    ∀ (k page fuel : Nat),
      (∀ i, i < k → net (reposPageUrl user (page + i)) = some (pageContent (page + i)) ∧
        pageContent (page + i) ≠ []) →
      net (reposPageUrl user (page + k)) = none →
      k < fuel →
      fetchPages net user fuel page =
        (.httpError, (List.range' page (k + 1)).map (reposPageUrl user)) := by
  intro k
  induction k with
  | zero =>
    intro page fuel h hk hfuel
    match fuel, hfuel with
    | f + 1, _ =>
      simp only [Nat.add_zero] at hk
      simp [fetchPages, hk, List.range'_succ, List.range']
  | succ k ih =>
    intro page fuel h hk hfuel
    match fuel, hfuel with
    | f + 1, hf =>
      have h0 := h 0 (Nat.succ_pos k)
      simp only [Nat.add_zero] at h0
      have hrec := ih (page + 1) f
        (fun i hi => by
          have := h (i + 1) (by omega)
          have harith : page + (i + 1) = page + 1 + i := by omega
          rw [harith] at this
          exact this)
        (by
          have harith : page + (k + 1) = page + 1 + k := by omega
          rw [harith] at hk
          exact hk)
        (by omega)
      match hpc : pageContent page with
      | [] => exact absurd hpc h0.2
      | x :: xs =>
        rw [hpc] at h0
        simp only [fetchPages, h0.1, hrec]
        simp [hpc, List.range'_succ]

theorem mem_insertByCountDesc {a x : String × Nat} {l : List (String × Nat)} :
    a ∈ insertByCountDesc x l ↔ a = x ∨ a ∈ l := by
  induction l with
  | nil => simp [insertByCountDesc]
  | cons y ys ih =>
    by_cases h : x.2 > y.2
    · simp only [insertByCountDesc, if_pos h, List.mem_cons]
    · simp only [insertByCountDesc, if_neg h, List.mem_cons, ih]
      tauto

theorem sorted_insertByCountDesc {x : String × Nat} {l : List (String × Nat)}
    (h : List.Sorted (fun a b : String × Nat => b.2 ≤ a.2) l) :
    List.Sorted (fun a b : String × Nat => b.2 ≤ a.2) (insertByCountDesc x l) := by
  induction l with
  | nil => simp [insertByCountDesc]
  | cons y ys ih =>
    rw [List.sorted_cons] at h
    by_cases hxy : x.2 > y.2
    · simp only [insertByCountDesc, if_pos hxy, List.sorted_cons]
      refine ⟨?_, ?_, h.2⟩
      · intro b hb
        rcases List.mem_cons.mp hb with rfl | hb
        · omega
        · have := h.1 b hb
          omega
      · exact h.1
    · simp only [insertByCountDesc, if_neg hxy, List.sorted_cons]
      refine ⟨?_, ih h.2⟩
      intro b hb
      rcases mem_insertByCountDesc.mp hb with rfl | hb
      · omega
      · exact h.1 b hb

theorem perm_insertByCountDesc (x : String × Nat) (l : List (String × Nat)) :
    List.Perm (insertByCountDesc x l) (x :: l) := by
  induction l with
  | nil => rfl
  | cons y ys ih =>
    by_cases h : x.2 > y.2
    · simp [insertByCountDesc, if_pos h]
    · simp only [insertByCountDesc, if_neg h]
      exact (ih.cons y).trans (List.Perm.swap x y ys)

theorem foldl_insert_perm :
    ∀ (l acc : List (String × Nat)),
      List.Perm (l.foldl (fun acc x => insertByCountDesc x acc) acc) (acc ++ l) := by
  intro l
  induction l with
  | nil => intro acc; simp
  | cons x xs ih =>
    intro acc
    have h1 := ih (insertByCountDesc x acc)
    have h2 : List.Perm (insertByCountDesc x acc ++ xs) ((x :: acc) ++ xs) :=
      (perm_insertByCountDesc x acc).append_right xs
    have h3 : List.Perm ((x :: acc) ++ xs) (acc ++ x :: xs) := by
      simpa using List.perm_middle.symm
    exact (h1.trans h2).trans h3

theorem sortByCountDesc_perm (l : List (String × Nat)) :
    List.Perm (sortByCountDesc l) l := by
  simpa [sortByCountDesc] using foldl_insert_perm l []

theorem foldl_insert_sorted :
    ∀ (l acc : List (String × Nat)),
      List.Sorted (fun a b : String × Nat => b.2 ≤ a.2) acc →
      List.Sorted (fun a b : String × Nat => b.2 ≤ a.2)
        (l.foldl (fun acc x => insertByCountDesc x acc) acc) := by
  intro l
  induction l with
  | nil => intro acc h; exact h
  | cons x xs ih => intro acc h; exact ih _ (sorted_insertByCountDesc h)

theorem sortByCountDesc_sorted (l : List (String × Nat)) :
    List.Sorted (fun a b : String × Nat => b.2 ≤ a.2) (sortByCountDesc l) :=
  foldl_insert_sorted l [] (by simp)

theorem filter_insertByCountDesc (c : Nat) (x : String × Nat) :
    ∀ (l : List (String × Nat)),
      List.Sorted (fun a b : String × Nat => b.2 ≤ a.2) l →
      (insertByCountDesc x l).filter (fun a => a.2 == c) =
        (if x.2 = c then l.filter (fun a => a.2 == c) ++ [x]
         else l.filter (fun a => a.2 == c)) := by
  intro l
  induction l with
  | nil =>
    intro _
    by_cases h : x.2 = c <;> simp [insertByCountDesc, h]
  | cons y ys ih =>
    intro hs
    rw [List.sorted_cons] at hs
    by_cases hxy : x.2 > y.2
    · have hins : insertByCountDesc x (y :: ys) = x :: y :: ys := by
        simp [insertByCountDesc, if_pos hxy]
      by_cases hxc : x.2 = c
      · have hfilter : (y :: ys).filter (fun a => a.2 == c) = [] := by
          rw [List.filter_eq_nil_iff]
          intro a ha
          have hle : a.2 ≤ y.2 := by
            rcases List.mem_cons.mp ha with rfl | ha
            · omega
            · exact hs.1 a ha
          simp only [beq_iff_eq]
          omega
        rw [hins, if_pos hxc, hfilter,
          List.filter_cons_of_pos (by simp [hxc]), hfilter]
        simp
      · rw [hins, if_neg hxc, List.filter_cons_of_neg (by simp [hxc])]
    · have hins : insertByCountDesc x (y :: ys) = y :: insertByCountDesc x ys := by
        simp [insertByCountDesc, if_neg hxy]
      by_cases hxc : x.2 = c <;> by_cases hyc : y.2 = c <;>
        simp [hins, List.filter_cons, hxc, hyc, ih hs.2]

theorem foldl_insert_filter (c : Nat) :
    ∀ (l acc : List (String × Nat)),
      List.Sorted (fun a b : String × Nat => b.2 ≤ a.2) acc →
      (l.foldl (fun acc x => insertByCountDesc x acc) acc).filter (fun a => a.2 == c) =
        acc.filter (fun a => a.2 == c) ++ l.filter (fun a => a.2 == c) := by
  intro l
  induction l with
  | nil => intro acc _; simp
  | cons x xs ih =>
    intro acc hs
    have step := ih (insertByCountDesc x acc) (sorted_insertByCountDesc hs)
    calc ((x :: xs).foldl (fun acc x => insertByCountDesc x acc) acc).filter
          (fun a => a.2 == c)
        = (xs.foldl (fun acc x => insertByCountDesc x acc)
            (insertByCountDesc x acc)).filter (fun a => a.2 == c) := rfl
      _ = (insertByCountDesc x acc).filter (fun a => a.2 == c) ++
            xs.filter (fun a => a.2 == c) := step
      _ = acc.filter (fun a => a.2 == c) ++
            (x :: xs).filter (fun a => a.2 == c) := by
          rw [filter_insertByCountDesc c x acc hs]
          by_cases hxc : x.2 = c <;> simp [hxc]

/-- Stability of the `most_common` sort: within each byte-count
class, the sorted list keeps the counter's insertion order. -/
theorem sortByCountDesc_filter (c : Nat) (l : List (String × Nat)) :
    (sortByCountDesc l).filter (fun a => a.2 == c) =
      l.filter (fun a => a.2 == c) := by
  simpa [sortByCountDesc] using foldl_insert_filter c l [] (by simp)

theorem counterAdd_keys (c : List (String × Nat)) (k : String) (v : Nat) :
    (counterAdd c k v).map Prod.fst =
      (if k ∈ c.map Prod.fst then c.map Prod.fst else c.map Prod.fst ++ [k]) := by
  induction c with
  | nil => simp [counterAdd]
  | cons p rest ih =>
    by_cases h : p.1 = k
    · simp [counterAdd, h]
    · by_cases hm : k ∈ rest.map Prod.fst <;>
        simp [counterAdd, h, ih, hm, Ne.symm h]

/-- New languages enter the totals counter at the end, in the order
of the merged map: the counter's key order is first-encounter order. -/
theorem counterUpdate_keys :
    ∀ (m : LangMap) (c : List (String × Nat)), (m.map Prod.fst).Nodup →
      (counterUpdate c m).map Prod.fst =
        c.map Prod.fst ++
          (m.map Prod.fst).filter (fun k => !decide (k ∈ c.map Prod.fst)) := by
  intro m
  induction m with
  | nil => intro c _; simp [counterUpdate]
  | cons kv m' ih =>
    intro c hnd
    rw [List.map_cons, List.nodup_cons] at hnd
    have hstep : counterUpdate c (kv :: m') = counterUpdate (counterAdd c kv.1 kv.2) m' := rfl
    rw [hstep, ih _ hnd.2]
    by_cases hm : kv.1 ∈ c.map Prod.fst
    · rw [counterAdd_keys, if_pos hm]
      simp [List.filter_cons, hm]
    · rw [counterAdd_keys, if_neg hm]
      have hcongr : (m'.map Prod.fst).filter
            (fun k => !decide (k ∈ c.map Prod.fst ++ [kv.1])) =
          (m'.map Prod.fst).filter (fun k => !decide (k ∈ c.map Prod.fst)) := by
        apply List.filter_congr
        intro a ha
        have hne : a ≠ kv.1 := by
          intro heq
          exact hnd.1 (heq ▸ ha)
        simp [List.mem_append, hne]
      rw [hcongr]
      simp [List.filter_cons, hm]

theorem aggregate_append (net : String → Option LangMap) (wf : Bool) :
    ∀ (l1 l2 : List Repo) (acc : AggResult),
      aggregate net wf (l1 ++ l2) acc = aggregate net wf l2 (aggregate net wf l1 acc) := by
  intro l1
  induction l1 with
  | nil => intro l2 acc; rfl
  | cons r rs ih =>
    intro l2 acc
    simp only [List.cons_append, aggregate]
    exact ih _ _

theorem aggregateStep_fetched_shift (net : String → Option LangMap) (wf : Bool)
    (t : List (String × Nat)) (c : List (String × LangMap)) (u : Bool)
    (f : List String) (repo : Repo) :
    aggregateStep net wf ⟨t, c, u, f⟩ repo =
      (let s := aggregateStep net wf ⟨t, c, u, []⟩ repo
       ⟨s.totals, s.cache, s.cacheUpdated, f ++ s.fetched⟩) := by
  unfold aggregateStep
  by_cases hg : (!wf && repo.fork) = true
  · simp [hg]
  · cases heq : alookup repo.full_name c with
    | some m => simp [hg, heq]
    | none =>
      cases hnet : net repo.languages_url with
      | some m => simp [hg, heq, hnet]
      | none => simp [hg, heq, hnet]

theorem aggregate_fetched_shift (net : String → Option LangMap) (wf : Bool) :
    ∀ (l : List Repo) (t : List (String × Nat)) (c : List (String × LangMap))
      (u : Bool) (f : List String),
      aggregate net wf l ⟨t, c, u, f⟩ =
        (let s := aggregate net wf l ⟨t, c, u, []⟩
         ⟨s.totals, s.cache, s.cacheUpdated, f ++ s.fetched⟩) := by
  intro l
  induction l with
  | nil => intro t c u f; simp [aggregate]
  | cons r rs ih =>
    intro t c u f
    rcases hstep : aggregateStep net wf ⟨t, c, u, ([] : List String)⟩ r with ⟨t', c', u', d⟩
    have hl : aggregate net wf (r :: rs) ⟨t, c, u, f⟩ =
        aggregate net wf rs ⟨t', c', u', f ++ d⟩ := by
      show aggregate net wf rs (aggregateStep net wf ⟨t, c, u, f⟩ r) = _
      rw [aggregateStep_fetched_shift, hstep]
    have hr : aggregate net wf (r :: rs) ⟨t, c, u, []⟩ =
        aggregate net wf rs ⟨t', c', u', d⟩ := by
      show aggregate net wf rs (aggregateStep net wf ⟨t, c, u, []⟩ r) = _
      rw [hstep]
    rw [hl, hr, ih t' c' u' (f ++ d), ih t' c' u' d]
    simp

/-- Case analysis for one loop iteration: either the cache and the
`cache_updated` flag are untouched (fork skip, cache hit, or failed
fetch), or a successful fetch of an uncached qualifying repository
appended exactly its entry and set the flag. -/
theorem aggregateStep_cases (net : String → Option LangMap) (wf : Bool)
    (acc : AggResult) (r : Repo) :
    ((aggregateStep net wf acc r).cache = acc.cache ∧
     (aggregateStep net wf acc r).cacheUpdated = acc.cacheUpdated) ∨
    (∃ m, net r.languages_url = some m ∧ alookup r.full_name acc.cache = none ∧
      qualifies wf r = true ∧
      aggregateStep net wf acc r =
        ⟨counterUpdate acc.totals m, acc.cache ++ [(r.full_name, m)], true,
         acc.fetched ++ [r.full_name]⟩) := by
  unfold aggregateStep
  by_cases hg : (!wf && r.fork) = true
  · left; simp [hg]
  · have hq : qualifies wf r = true := by
      rw [skip_guard_eq_not_qualifies] at hg
      simp at hg
      simp [hg]
    cases heq : alookup r.full_name acc.cache with
    | some m => left; simp [hg, heq]
    | none =>
      cases hnet : net r.languages_url with
      | some m =>
        right
        refine ⟨m, rfl, rfl, hq, ?_⟩
        simp [hg]
      | none => left; simp [hg, heq, hnet]

theorem aggregate_cache_growth (net : String → Option LangMap) (wf : Bool) :
    ∀ (l : List Repo) (acc : AggResult),
      ∃ d, (aggregate net wf l acc).cache = acc.cache ++ d ∧
        (aggregate net wf l acc).cacheUpdated = (acc.cacheUpdated || !d.isEmpty) := by
  intro l
  induction l with
  | nil => intro acc; exact ⟨[], by simp [aggregate]⟩
  | cons r rs ih =>
    intro acc
    obtain ⟨d, hd, hu⟩ := ih (aggregateStep net wf acc r)
    rcases aggregateStep_cases net wf acc r with ⟨hc, hcu⟩ | ⟨m, _, _, _, hstep⟩
    · refine ⟨d, ?_, ?_⟩
      · show (aggregate net wf rs (aggregateStep net wf acc r)).cache = _
        rw [hd, hc]
      · show (aggregate net wf rs (aggregateStep net wf acc r)).cacheUpdated = _
        rw [hu, hcu]
    · refine ⟨(r.full_name, m) :: d, ?_, ?_⟩
      · show (aggregate net wf rs (aggregateStep net wf acc r)).cache = _
        rw [hd, hstep]
        simp
      · show (aggregate net wf rs (aggregateStep net wf acc r)).cacheUpdated = _
        rw [hu, hstep]
        simp

theorem cacheCoherent_lookup {urlOf : String → String}
    {net : String → Option LangMap} {cache : List (String × LangMap)}
    (hc : cacheCoherent urlOf net cache) {k : String} {m : LangMap}
    (h : alookup k cache = some m) : net (urlOf k) = some m :=
  hc (k, m) (alookup_eq_some_mem h)

theorem aggregateStep_coherent {urlOf : String → String}
    {net : String → Option LangMap} {wf : Bool} {acc : AggResult} {r : Repo}
    (hc : cacheCoherent urlOf net acc.cache)
    (hr : r.languages_url = urlOf r.full_name) :
    cacheCoherent urlOf net (aggregateStep net wf acc r).cache := by
  rcases aggregateStep_cases net wf acc r with ⟨hcache, _⟩ | ⟨m, hnet, _, _, hstep⟩
  · rw [hcache]; exact hc
  · rw [hstep]
    intro p hp
    rcases List.mem_append.mp hp with hp | hp
    · exact hc p hp
    · simp only [List.mem_singleton] at hp
      rw [hp]
      rw [hr] at hnet
      exact hnet

theorem aggregate_coherent {urlOf : String → String}
    {net : String → Option LangMap} {wf : Bool} :
    ∀ {l : List Repo} {acc : AggResult},
      cacheCoherent urlOf net acc.cache → wellNamed urlOf l →
      cacheCoherent urlOf net (aggregate net wf l acc).cache := by
  intro l
  induction l with
  | nil => intro acc hc _; exact hc
  | cons r rs ih =>
    intro acc hc hw
    exact ih (aggregateStep_coherent hc (hw r (List.mem_cons_self r rs)))
      (fun s hs => hw s (List.mem_cons_of_mem r hs))

/-- With a coherent cache, one loop iteration adds to the totals
exactly the repository's live language map (the empty map on fetch
failure), whether it came from the cache or from the network. -/
theorem aggregateStep_totals {urlOf : String → String}
    {net : String → Option LangMap} {wf : Bool} {acc : AggResult} {r : Repo}
    (hc : cacheCoherent urlOf net acc.cache)
    (hr : r.languages_url = urlOf r.full_name) :
    (aggregateStep net wf acc r).totals =
      (if qualifies wf r = true then
        counterUpdate acc.totals ((net (urlOf r.full_name)).getD [])
      else acc.totals) := by
  unfold aggregateStep
  rw [skip_guard_eq_not_qualifies]
  cases hq : qualifies wf r with
  | false => simp
  | true =>
    cases heq : alookup r.full_name acc.cache with
    | some m =>
      have hm := cacheCoherent_lookup hc heq
      simp [heq, hm]
    | none =>
      cases hnet : net r.languages_url with
      | some m =>
        rw [hr] at hnet
        simp [heq, hnet]
      | none =>
        rw [hr] at hnet
        simp [heq, hnet]

theorem aggregate_totals_eq {urlOf : String → String}
    {net : String → Option LangMap} {wf : Bool} :
    ∀ (l : List Repo) (acc1 acc2 : AggResult),
      wellNamed urlOf l →
      cacheCoherent urlOf net acc1.cache →
      cacheCoherent urlOf net acc2.cache →
      acc1.totals = acc2.totals →
      (aggregate net wf l acc1).totals = (aggregate net wf l acc2).totals := by
  intro l
  induction l with
  | nil => intro acc1 acc2 _ _ _ ht; exact ht
  | cons r rs ih =>
    intro acc1 acc2 hw hc1 hc2 ht
    have hr := hw r (List.mem_cons_self r rs)
    have hw' : wellNamed urlOf rs := fun s hs => hw s (List.mem_cons_of_mem r hs)
    apply ih _ _ hw' (aggregateStep_coherent hc1 hr) (aggregateStep_coherent hc2 hr)
    rw [aggregateStep_totals hc1 hr, aggregateStep_totals hc2 hr, ht]

theorem aggregate_cache_complete {net : String → Option LangMap} {wf : Bool} :
    ∀ (l : List Repo) (acc : AggResult),
      (∀ r ∈ l, qualifies wf r = true → (net r.languages_url).isSome) →
      ∀ r ∈ l, qualifies wf r = true →
        (alookup r.full_name (aggregate net wf l acc).cache).isSome := by
  intro l
  induction l with
  | nil => intro acc _ r hr; cases hr
  | cons s rs ih =>
    intro acc hnet r hr hq
    rcases List.mem_cons.mp hr with rfl | hr
    · have hsome : (alookup r.full_name (aggregateStep net wf acc r).cache).isSome := by
        unfold aggregateStep
        rw [skip_guard_eq_not_qualifies, hq]
        cases heq : alookup r.full_name acc.cache with
        | some m => simp [heq]
        | none =>
          have hns := hnet r (List.mem_cons_self r rs) hq
          cases hnetr : net r.languages_url with
          | none => rw [hnetr] at hns; simp at hns
          | some m => simp [heq, hnetr, alookup_append, alookup]
      obtain ⟨d, hd, _⟩ := aggregate_cache_growth net wf rs (aggregateStep net wf acc r)
      show (alookup r.full_name (aggregate net wf rs (aggregateStep net wf acc r)).cache).isSome
      rw [hd, alookup_append]
      cases h' : alookup r.full_name (aggregateStep net wf acc r).cache with
      | none => rw [h'] at hsome; simp at hsome
      | some v => simp
    · exact ih (aggregateStep net wf acc s)
        (fun t ht hqt => hnet t (List.mem_cons_of_mem s ht) hqt) r hr hq

/-- When every qualifying repository is already in the cache, the
loop touches neither the cache, the `cache_updated` flag, nor the
fetch log: a full-cache run performs no network request. -/
theorem aggregate_all_hit {net : String → Option LangMap} {wf : Bool} :
    ∀ (l : List Repo) (acc : AggResult),
      (∀ r ∈ l, qualifies wf r = true → (alookup r.full_name acc.cache).isSome) →
      (aggregate net wf l acc).cache = acc.cache ∧
      (aggregate net wf l acc).cacheUpdated = acc.cacheUpdated ∧
      (aggregate net wf l acc).fetched = acc.fetched := by
  intro l
  induction l with
  | nil => intro acc _; exact ⟨rfl, rfl, rfl⟩
  | cons r rs ih =>
    intro acc hhit
    by_cases hq : qualifies wf r = true
    · obtain ⟨m, hm⟩ := Option.isSome_iff_exists.mp
        (hhit r (List.mem_cons_self r rs) hq)
      have hstep : aggregateStep net wf acc r =
          { acc with totals := counterUpdate acc.totals m } := by
        unfold aggregateStep
        rw [skip_guard_eq_not_qualifies, hq]
        simp [hm]
      have hrest := ih (aggregateStep net wf acc r)
        (fun s hs hqs => by rw [hstep]; exact hhit s (List.mem_cons_of_mem r hs) hqs)
      show (aggregate net wf rs (aggregateStep net wf acc r)).cache = acc.cache ∧
        (aggregate net wf rs (aggregateStep net wf acc r)).cacheUpdated = acc.cacheUpdated ∧
        (aggregate net wf rs (aggregateStep net wf acc r)).fetched = acc.fetched
      rw [hstep] at hrest ⊢
      exact hrest
    · have hstep := aggregateStep_of_not_qualifies (by simpa using hq) net acc
      show (aggregate net wf rs (aggregateStep net wf acc r)).cache = acc.cache ∧
        (aggregate net wf rs (aggregateStep net wf acc r)).cacheUpdated = acc.cacheUpdated ∧
        (aggregate net wf rs (aggregateStep net wf acc r)).fetched = acc.fetched
      rw [hstep]
      exact ih acc (fun s hs hqs => hhit s (List.mem_cons_of_mem r hs) hqs)

theorem aggregate_cache_keys {net : String → Option LangMap} {wf : Bool} :
    ∀ (l : List Repo) (acc : AggResult) (k : String),
      alookup k acc.cache = none → k ∉ l.map Repo.full_name →
      alookup k (aggregate net wf l acc).cache = none := by
  intro l
  induction l with
  | nil => intro acc k h _; exact h
  | cons r rs ih =>
    intro acc k h hk
    simp only [List.map_cons, List.mem_cons] at hk
    push_neg at hk
    have hstep : alookup k (aggregateStep net wf acc r).cache = none := by
      rcases aggregateStep_cases net wf acc r with ⟨hcache, _⟩ | ⟨m, _, _, _, hs⟩
      · rw [hcache]; exact h
      · rw [hs]
        simp only [alookup_append, h]
        simp only [alookup]
        rw [if_neg (Ne.symm hk.1)]
    exact ih (aggregateStep net wf acc r) k hstep hk.2

theorem aggregate_fetched_mono {net : String → Option LangMap} {wf : Bool}
    (l : List Repo) (acc : AggResult) :
    ∀ x ∈ acc.fetched, x ∈ (aggregate net wf l acc).fetched := by
  intro x hx
  have hshift := aggregate_fetched_shift net wf l acc.totals acc.cache
    acc.cacheUpdated acc.fetched
  rw [show (⟨acc.totals, acc.cache, acc.cacheUpdated, acc.fetched⟩ : AggResult) = acc
      from rfl] at hshift
  rw [hshift]
  simp [hx]

/-- Every cache entry present after aggregation was either already
cached beforehand or is the successful fetch result of a qualifying
repository in the list. -/
theorem aggregate_cache_entries {net : String → Option LangMap} {wf : Bool} :
    ∀ (l : List Repo) (acc : AggResult) (k : String) (m : LangMap),
      alookup k (aggregate net wf l acc).cache = some m →
      alookup k acc.cache = some m ∨
        ∃ r ∈ l, qualifies wf r = true ∧ r.full_name = k ∧
          net r.languages_url = some m := by
  intro l
  induction l with
  | nil => intro acc k m h; exact Or.inl h
  | cons r rs ih =>
    intro acc k m h
    rcases ih (aggregateStep net wf acc r) k m h with h' | ⟨s, hs, h1, h2, h3⟩
    · rcases aggregateStep_cases net wf acc r with ⟨hcache, _⟩ | ⟨m', hnet, _, hq, hstep⟩
      · rw [hcache] at h'
        exact Or.inl h'
      · rw [hstep] at h'
        rw [alookup_append] at h'
        cases hbase : alookup k acc.cache with
        | some v =>
          rw [hbase] at h'
          exact Or.inl h'
        | none =>
          rw [hbase] at h'
          simp only [alookup] at h'
          by_cases hfn : r.full_name = k
          · rw [if_pos hfn] at h'
            refine Or.inr ⟨r, List.mem_cons_self r rs, hq, hfn, ?_⟩
            rw [hnet, Option.some_inj.mp h']
          · rw [if_neg hfn] at h'
            cases h'
    · exact Or.inr ⟨s, List.mem_cons_of_mem r hs, h1, h2, h3⟩

/-- A qualifying repository whose fetch would fail and which is never
cached gets its language map requested (and re-requested on each
later run over a coherent cache). -/
theorem aggregate_attempts_fetch {urlOf : String → String}
    {net : String → Option LangMap} {wf : Bool} :
    ∀ (l : List Repo) (acc : AggResult),
      wellNamed urlOf l → cacheCoherent urlOf net acc.cache →
      ∀ r ∈ l, qualifies wf r = true → net (urlOf r.full_name) = none →
        r.full_name ∈ (aggregate net wf l acc).fetched := by
  intro l
  induction l with
  | nil => intro acc _ _ r hr; cases hr
  | cons s rs ih =>
    intro acc hw hc r hr hq hnet
    rcases List.mem_cons.mp hr with rfl | hr
    · have hurl := hw r (List.mem_cons_self r rs)
      have hnone : alookup r.full_name acc.cache = none := by
        cases h : alookup r.full_name acc.cache with
        | none => rfl
        | some m =>
          have := cacheCoherent_lookup hc h
          rw [this] at hnet
          cases hnet
      have hnet' : net r.languages_url = none := by rw [hurl]; exact hnet
      have hstep : aggregateStep net wf acc r =
          { acc with totals := counterUpdate acc.totals [],
                     fetched := acc.fetched ++ [r.full_name] } := by
        unfold aggregateStep
        rw [skip_guard_eq_not_qualifies, hq]
        simp [hnone, hnet']
      show r.full_name ∈ (aggregate net wf rs (aggregateStep net wf acc r)).fetched
      apply aggregate_fetched_mono
      rw [hstep]
      simp
    · exact ih (aggregateStep net wf acc s)
        (fun t ht => hw t (List.mem_cons_of_mem s ht))
        (aggregateStep_coherent hc (hw s (List.mem_cons_self s rs)))
        r hr hq hnet

theorem list_sum_map_mul {α : Type} (l : List α) (g : α → ℚ) (c : ℚ) :
    (l.map (fun x => g x * c)).sum = (l.map g).sum * c := by
  induction l with
  | nil => simp
  | cons x xs ih => simp [ih, add_mul]

theorem sum_cast_snd (totals : List (String × Nat)) :
    (totals.map (fun x => ((x.2 : ℚ)))).sum = ((totalBytes totals : Nat) : ℚ) := by
  unfold totalBytes
  rw [Nat.cast_list_sum, List.map_map]
  rfl

theorem percentage_eq_mul (b S : Nat) :
    percentage b S = (b : ℚ) * (100 / (S : ℚ)) := by
  unfold percentage
  ring

theorem percentage_nonneg (b S : Nat) : 0 ≤ percentage b S := by
  unfold percentage
  positivity

/-- Summing the reported percentage over the whole (untruncated)
language set gives exactly 100 (exact arithmetic). -/
theorem percentage_sum_all (totals : List (String × Nat))
    (hpos : 0 < totalBytes totals) :
    (totals.map (fun x => percentage x.2 (totalBytes totals))).sum = 100 := by
  have hS : ((totalBytes totals : Nat) : ℚ) ≠ 0 := by
    exact_mod_cast Nat.pos_iff_ne_zero.mp hpos
  have hmap : totals.map (fun x => percentage x.2 (totalBytes totals)) =
      totals.map (fun x => ((x.2 : ℚ)) * (100 / ((totalBytes totals : Nat) : ℚ))) := by
    apply List.map_congr_left
    intro a _
    exact percentage_eq_mul a.2 (totalBytes totals)
  rw [hmap, list_sum_map_mul, sum_cast_snd]
  field_simp

theorem sum_take_le (l : List ℚ) (h : ∀ x ∈ l, 0 ≤ x) (n : Nat) :
    (l.take n).sum ≤ l.sum := by
  conv_rhs => rw [← List.take_append_drop n l]
  rw [List.sum_append]
  have hd : 0 ≤ (l.drop n).sum :=
    List.sum_nonneg (fun x hx => h x (List.drop_subset n l hx))
  linarith

theorem getD_zipWith {α β γ : Type} (f : α → β → γ) (d1 : α) (d2 : β) (d3 : γ) :
    ∀ (a : List α) (b : List β) (i : Nat), i < a.length → i < b.length →
      (List.zipWith f a b).getD i d3 = f (a.getD i d1) (b.getD i d2) := by
  intro a
  induction a with
  | nil => intro b i h; simp at h
  | cons x xs ih =>
    intro b i ha hb
    cases b with
    | nil => simp at hb
    | cons y ys =>
      cases i with
      | zero => simp
      | succ j =>
        simp only [List.zipWith_cons_cons, List.getD_cons_succ]
        exact ih ys j (by simpa using ha) (by simpa using hb)

theorem getD_map_length :
    ∀ (l : List String) (i : Nat), i < l.length →
      (l.map String.length).getD i 0 = (l.getD i "").length := by
  intro l
  induction l with
  | nil => intro i h; simp at h
  | cons x xs ih =>
    intro i hi
    cases i with
    | zero => simp
    | succ j =>
      simp only [List.map_cons, List.getD_cons_succ]
      exact ih j (by simpa using hi)

theorem updWidths_length {ws : List Nat} {row : List String}
    (h : row.length = ws.length) : (updWidths ws row).length = ws.length := by
  simp [updWidths, h]

theorem updWidths_getD {ws : List Nat} {row : List String}
    (h : row.length = ws.length) {i : Nat} (hi : i < ws.length) :
    (updWidths ws row).getD i 0 =
      max (ws.getD i 0) ((row.map String.length).getD i 0) := by
  unfold updWidths
  rw [getD_zipWith _ 0 "" 0 ws row i hi (by omega)]
  rw [getD_map_length row i (by omega)]
  by_cases hgt : (row.getD i "").length > ws.getD i 0
  · rw [if_pos hgt, max_eq_right (Nat.le_of_lt hgt)]
  · rw [if_neg hgt, max_eq_left (by omega)]

theorem foldl_updWidths_length :
    ∀ (rows : List (List String)) (ws : List Nat),
      (∀ row ∈ rows, row.length = ws.length) →
      (rows.foldl updWidths ws).length = ws.length := by
  intro rows
  induction rows with
  | nil => intro ws _; rfl
  | cons row rest ih =>
    intro ws hlen
    have h1 : (updWidths ws row).length = ws.length :=
      updWidths_length (hlen row (List.mem_cons_self row rest))
    rw [List.foldl_cons,
      ih (updWidths ws row)
        (fun r hr => (hlen r (List.mem_cons_of_mem row hr)).trans h1.symm), h1]

/-- The column width computed by the fold equals the maximum of the
header cell's length and every data cell's length in that column. -/
theorem foldl_updWidths_getD :
    ∀ (rows : List (List String)) (ws : List Nat),
      (∀ row ∈ rows, row.length = ws.length) →
      ∀ i, i < ws.length →
        (rows.foldl updWidths ws).getD i 0 =
          max (ws.getD i 0)
            ((rows.map (fun row => (row.map String.length).getD i 0)).foldr max 0) := by
  intro rows
  induction rows with
  | nil => intro ws _ i hi; simp
  | cons row rest ih =>
    intro ws hlen i hi
    have hrl : row.length = ws.length := hlen row (List.mem_cons_self row rest)
    have hwl : (updWidths ws row).length = ws.length := updWidths_length hrl
    have hrest := ih (updWidths ws row)
      (fun r hr => (hlen r (List.mem_cons_of_mem row hr)).trans hwl.symm)
      i (by omega)
    rw [List.foldl_cons, hrest, updWidths_getD hrl hi]
    simp [max_assoc]

theorem le_foldr_max : ∀ (l : List Nat) (x : Nat), x ∈ l → x ≤ l.foldr max 0 := by
  intro l
  induction l with
  | nil => intro x hx; cases hx
  | cons y ys ih =>
    intro x hx
    rcases List.mem_cons.mp hx with rfl | hx
    · simp
    · simp only [List.foldr_cons]
      exact Nat.le_trans (ih x hx) (le_max_right y _)

theorem pyLjust_length (s : String) (w : Nat) :
    (pyLjust s w).length = max s.length w := by
  unfold pyLjust
  rw [String.length_append]
  simp only [String.length, String.mk, List.length_replicate]
  rcases Nat.le_total s.data.length w with h | h
  · rw [max_eq_right h]
    omega
  · rw [max_eq_left h]
    omega

/-! ## Claim theorems -/

/-- C1: the claim says every cache file that fails to parse or lacks
the expected fields is treated like an absent snapshot and the run
continues.  The code refutes this: a languages cache file parsing to
the object `{"date": today}` — valid JSON, dated today, but lacking
the expected `"languages"` field — is accepted by the load
(`main.py` lines 84-92 catch only `JSONDecodeError`/`KeyError`, and
the `try` body cannot raise `KeyError`), and the run then halts with
an uncaught `KeyError` at `languages_cache["languages"]`
(`main.py` line 107) on the first qualifying repository.  Likewise a
repositories cache file whose JSON is a non-object (here the number
`0`) halts the run with an uncaught `AttributeError` at
`cache_data.get("date")` (`main.py` line 59). -/
theorem c1_cache_missing_fields_halts_run :
    loadLanguagesCache
        (some (some (Json.obj [("date", Json.str "2026-10-12")]))) "2026-10-12" =
      Except.ok (Json.obj [("date", Json.str "2026-10-12")]) ∧
    langsPipeline (some (some (Json.obj [("date", Json.str "2026-10-12")])))
        "2026-10-12" (fun _ => some [("Go", 10)]) false
        [⟨"a", "u/a", false, "https://api.github.com/repos/u/a/languages"⟩] =
      Except.error PyErr.keyError ∧
    loadReposCache (some (some (Json.num 0))) "2026-10-12" =
      Except.error PyErr.attributeError :=
  ⟨rfl, rfl, rfl⟩

/-- C5: fork filtering is purely boolean: with `include_forks = false`
a fork contributes nothing to the aggregation state and has no table
row; a non-fork always qualifies; with `include_forks = true` every
repository qualifies; and both aggregation and the table depend only
on the fork-filtered repository list. -/
theorem c5_fork_filtering (net : String → Option LangMap)
    (pre post : List Repo) (r : Repo) (c0 : List (String × LangMap))
    (langs : List (String × LangMap)) (topNames : List String)
    (hfork : r.fork = true) :
    aggregateRun net false (pre ++ r :: post) c0 =
      aggregateRun net false (pre ++ post) c0 ∧
    tableRows (pre ++ r :: post) langs topNames false =
      tableRows (pre ++ post) langs topNames false ∧
    qualifies false r = false ∧
    (∀ (wf : Bool) (s : Repo), s.fork = false → qualifies wf s = true) ∧
    (∀ s : Repo, qualifies true s = true) ∧
    (∀ (repos : List Repo) (wf : Bool),
      aggregateRun net wf repos c0 =
        aggregateRun net wf (repos.filter (qualifies wf)) c0 ∧
      tableRows repos langs topNames wf =
        tableRows (repos.filter (qualifies wf)) langs topNames wf) := by
  have hq : qualifies false r = false := by simp [qualifies, hfork]
  refine ⟨?_, ?_, hq, ?_, ?_, ?_⟩
  · unfold aggregateRun
    rw [aggregate_eq_aggregate_filter net false (pre ++ r :: post),
      aggregate_eq_aggregate_filter net false (pre ++ post)]
    congr 1
    simp [List.filter_append, List.filter_cons, hq]
  · unfold tableRows
    congr 1
    simp [List.filter_append, List.filter_cons, hq]
  · intro wf s hs
    simp [qualifies, hs]
  · intro s
    simp [qualifies]
  · intro repos wf
    constructor
    · unfold aggregateRun
      exact aggregate_eq_aggregate_filter net wf repos _
    · unfold tableRows
      congr 1
      rw [List.filter_filter]
      apply List.filter_congr
      intro a _
      simp

/-- C6: repository listing — a snapshot dated today that is non-empty
is returned verbatim with no page request and no cache write;
otherwise pages (each requested with `per_page=100`) are fetched
starting at page 1, incrementing until an empty page, the result is
the concatenation of the pages in server order, and it is stored in
the cache under today's date. -/
theorem c6_repository_listing (net : String → Option (List Repo))
    (user today : String) (fuel : Nat)
    (cacheFile : Option (String × List Repo)) (pageContent : Nat → List Repo)
    (N : Nat)
    (hmiss : cachedRepos cacheFile today = [])
    (hpages : ∀ i, i < N →
      net (reposPageUrl user (1 + i)) = some (pageContent (1 + i)) ∧
      pageContent (1 + i) ≠ [])
    (hlast : net (reposPageUrl user (1 + N)) = some [])
    (hfuel : N < fuel) :
    (∀ rs : List Repo, rs ≠ [] →
      listRepositories net user fuel (some (today, rs)) today =
        (.ok rs, [], none)) ∧
    listRepositories net user fuel cacheFile today =
      (.ok ((List.range' 1 N).flatMap pageContent),
       (List.range' 1 (N + 1)).map (reposPageUrl user),
       some (today, (List.range' 1 N).flatMap pageContent)) := by
  constructor
  · intro rs hrs
    unfold listRepositories
    simp [cachedRepos, hrs]
  · have hfetch := fetchPages_ok net user pageContent N 1 fuel hpages hlast hfuel
    unfold listRepositories
    simp [hmiss, hfetch]

/-- C7: a non-success response on any page request aborts the whole
listing with a transport error: the outcome carries no repository
list, no repositories cache is written, and every page was requested
at most once (no retry — the request sequence `1, …, k+1` has no
duplicates). -/
theorem c7_listing_transport_error_fatal (net : String → Option (List Repo))
    (user today : String) (fuel : Nat)
    (cacheFile : Option (String × List Repo)) (pageContent : Nat → List Repo)
    (k : Nat)
    (hmiss : cachedRepos cacheFile today = [])
    (hpages : ∀ i, i < k →
      net (reposPageUrl user (1 + i)) = some (pageContent (1 + i)) ∧
      pageContent (1 + i) ≠ [])
    (hfail : net (reposPageUrl user (1 + k)) = none)
    (hfuel : k < fuel) :
    listRepositories net user fuel cacheFile today =
      (.httpError, (List.range' 1 (k + 1)).map (reposPageUrl user), none) ∧
    (List.range' 1 (k + 1)).Nodup := by
  constructor
  · have hfetch := fetchPages_error net user pageContent k 1 fuel hpages hfail hfuel
    unfold listRepositories
    simp [hmiss, hfetch]
  · exact List.nodup_range' 1 (k + 1)

/-- C2: the aggregate totals are a pure function of the qualifying
repositories' language byte maps — aggregating against a coherent
cache (one whose entries equal today's live fetch results) gives the
same totals as fetching everything live from an empty cache; and
when every qualifying repository's fetch succeeds, re-running the
aggregation the same day over the cache the first run produced gives
identical totals with zero language requests. -/
theorem c2_totals_cache_oblivious (urlOf : String → String)
    (net : String → Option LangMap) (wf : Bool) (repos : List Repo)
    (c0 : List (String × LangMap))
    (hw : wellNamed urlOf repos) (hc : cacheCoherent urlOf net c0) :
    (aggregateRun net wf repos c0).totals =
      (aggregateRun net wf repos []).totals ∧
    ((∀ r ∈ repos, qualifies wf r = true → (net r.languages_url).isSome) →
      (aggregateRun net wf repos ((aggregateRun net wf repos c0).cache)).totals =
        (aggregateRun net wf repos c0).totals ∧
      (aggregateRun net wf repos ((aggregateRun net wf repos c0).cache)).fetched =
        []) := by
  constructor
  · exact aggregate_totals_eq repos ⟨[], c0, false, []⟩ ⟨[], [], false, []⟩
      hw hc (fun p hp => absurd hp (List.not_mem_nil p)) rfl
  · intro hsucc
    have hcoh1 : cacheCoherent urlOf net (aggregateRun net wf repos c0).cache :=
      aggregate_coherent hc hw
    have hhit : ∀ r ∈ repos, qualifies wf r = true →
        (alookup r.full_name (aggregateRun net wf repos c0).cache).isSome :=
      fun r hr hq => aggregate_cache_complete repos ⟨[], c0, false, []⟩ hsucc r hr hq
    constructor
    · exact aggregate_totals_eq repos
        ⟨[], (aggregateRun net wf repos c0).cache, false, []⟩ ⟨[], c0, false, []⟩
        hw hcoh1 hc rfl
    · exact (aggregate_all_hit repos
        ⟨[], (aggregateRun net wf repos c0).cache, false, []⟩ hhit).2.2

/-- C3: ranking with `top_n = K` returns at most `K` entries
(`min K (number of distinct languages)`, so all of them when fewer
than `K` exist), sorted by non-increasing byte count; equal-count
languages keep their order in the counter (the filter of the sorted
list by any byte count equals the filter of the counter), and the
counter's key order is first-encounter order (new keys of a merged
map are appended at the end). -/
theorem c3_ranking_order (totals : List (String × Nat)) (K : Nat)
    (_hne : totals ≠ []) :
    (most_common K totals).length = min K totals.length ∧
    List.Sorted (fun a b : String × Nat => b.2 ≤ a.2) (most_common K totals) ∧
    (∀ c : Nat, (sortByCountDesc totals).filter (fun a => a.2 == c) =
      totals.filter (fun a => a.2 == c)) ∧
    (totals.length ≤ K → most_common K totals = sortByCountDesc totals) ∧
    (∀ (cnt : List (String × Nat)) (m : LangMap), (m.map Prod.fst).Nodup →
      (counterUpdate cnt m).map Prod.fst =
        cnt.map Prod.fst ++
          (m.map Prod.fst).filter (fun k => !decide (k ∈ cnt.map Prod.fst))) := by
  refine ⟨?_, ?_, ?_, ?_, ?_⟩
  · unfold most_common
    rw [List.length_take, (sortByCountDesc_perm totals).length_eq]
  · exact List.Pairwise.sublist (List.take_sublist K (sortByCountDesc totals))
      (sortByCountDesc_sorted totals)
  · exact fun c => sortByCountDesc_filter c totals
  · intro h
    unfold most_common
    apply List.take_of_length_le
    rw [(sortByCountDesc_perm totals).length_eq]
    exact h
  · exact fun cnt m hnd => counterUpdate_keys m cnt hnd

/-- C4: every displayed percentage is the entry's byte count divided
by the total over ALL aggregated languages (not just the displayed
top N) times 100; in exact arithmetic the percentages over the full
language set sum to 100, and the percentages of the displayed top-N
subset sum to at most 100. -/
theorem c4_percentages (totals : List (String × Nat)) (K : Nat)
    (_hne : totals ≠ []) (hpos : 0 < totalBytes totals) :
    (∀ e ∈ summaryReport K totals,
      e.2.2 = percentage e.2.1 (totalBytes totals)) ∧
    (totals.map (fun x => percentage x.2 (totalBytes totals))).sum = 100 ∧
    ((most_common K totals).map
      (fun x => percentage x.2 (totalBytes totals))).sum ≤ 100 := by
  refine ⟨?_, percentage_sum_all totals hpos, ?_⟩
  · intro e he
    unfold summaryReport at he
    obtain ⟨x, _, rfl⟩ := List.mem_map.mp he
    rfl
  · have hperm : List.Perm
        ((sortByCountDesc totals).map (fun x => percentage x.2 (totalBytes totals)))
        (totals.map (fun x => percentage x.2 (totalBytes totals))) :=
      (sortByCountDesc_perm totals).map _
    have hsum : ((sortByCountDesc totals).map
        (fun x => percentage x.2 (totalBytes totals))).sum = 100 :=
      hperm.sum_eq.trans (percentage_sum_all totals hpos)
    have htake : ((most_common K totals).map
        (fun x => percentage x.2 (totalBytes totals))).sum ≤
        ((sortByCountDesc totals).map
          (fun x => percentage x.2 (totalBytes totals))).sum := by
      unfold most_common
      rw [List.map_take]
      apply sum_take_le
      intro x hx
      obtain ⟨y, _, rfl⟩ := List.mem_map.mp hx
      exact percentage_nonneg _ _
    rw [hsum] at htake
    exact htake

/-- C8: a failed language fetch is non-fatal — the repository is
requested (reported), contributes the empty map, so the totals, the
cache, and the `cache_updated` flag are exactly those of the run
without that repository, and all later repositories are still
processed. -/
theorem c8_language_fetch_failure_nonfatal (net : String → Option LangMap)
    (wf : Bool) (pre post : List Repo) (r : Repo)
    (c0 : List (String × LangMap))
    (hq : qualifies wf r = true)
    (hmiss : alookup r.full_name c0 = none)
    (hpre : r.full_name ∉ pre.map Repo.full_name)
    (hfail : net r.languages_url = none) :
    (aggregateRun net wf (pre ++ r :: post) c0).totals =
      (aggregateRun net wf (pre ++ post) c0).totals ∧
    (aggregateRun net wf (pre ++ r :: post) c0).cache =
      (aggregateRun net wf (pre ++ post) c0).cache ∧
    (aggregateRun net wf (pre ++ r :: post) c0).cacheUpdated =
      (aggregateRun net wf (pre ++ post) c0).cacheUpdated ∧
    r.full_name ∈ (aggregateRun net wf (pre ++ r :: post) c0).fetched := by
  unfold aggregateRun
  rw [aggregate_append, aggregate_append]
  have hnone : alookup r.full_name
      (aggregate net wf pre ⟨[], c0, false, []⟩).cache = none :=
    aggregate_cache_keys pre ⟨[], c0, false, []⟩ r.full_name hmiss hpre
  have hstep : aggregateStep net wf (aggregate net wf pre ⟨[], c0, false, []⟩) r =
      ⟨(aggregate net wf pre ⟨[], c0, false, []⟩).totals,
       (aggregate net wf pre ⟨[], c0, false, []⟩).cache,
       (aggregate net wf pre ⟨[], c0, false, []⟩).cacheUpdated,
       (aggregate net wf pre ⟨[], c0, false, []⟩).fetched ++ [r.full_name]⟩ := by
    unfold aggregateStep
    rw [skip_guard_eq_not_qualifies, hq]
    simp [hnone, hfail, counterUpdate_nil]
  have hcons : aggregate net wf (r :: post)
      (aggregate net wf pre ⟨[], c0, false, []⟩) =
      aggregate net wf post
        (aggregateStep net wf (aggregate net wf pre ⟨[], c0, false, []⟩) r) := rfl
  rw [hcons, hstep]
  have hL := aggregate_fetched_shift net wf post
    (aggregate net wf pre ⟨[], c0, false, []⟩).totals
    (aggregate net wf pre ⟨[], c0, false, []⟩).cache
    (aggregate net wf pre ⟨[], c0, false, []⟩).cacheUpdated
    ((aggregate net wf pre ⟨[], c0, false, []⟩).fetched ++ [r.full_name])
  have hR : aggregate net wf post (aggregate net wf pre ⟨[], c0, false, []⟩) =
      (let s := aggregate net wf post
        ⟨(aggregate net wf pre ⟨[], c0, false, []⟩).totals,
         (aggregate net wf pre ⟨[], c0, false, []⟩).cache,
         (aggregate net wf pre ⟨[], c0, false, []⟩).cacheUpdated, []⟩
       ⟨s.totals, s.cache, s.cacheUpdated,
        (aggregate net wf pre ⟨[], c0, false, []⟩).fetched ++ s.fetched⟩) :=
    aggregate_fetched_shift net wf post _ _ _ _
  rw [hL, hR]
  simp

/-- C10: the in-memory languages cache only gains entries from
successful fetches — every entry after a run was cached before or is
the live result of a successful qualifying fetch; the
`cache_updated` flag is set exactly when the cache grew; and a
repository whose fetch fails is absent from the resulting cache and
is fetched again by the next same-day run over that cache. -/
theorem c10_cache_gains_only_successes (urlOf : String → String)
    (net : String → Option LangMap) (wf : Bool) (repos : List Repo)
    (c0 : List (String × LangMap))
    (hw : wellNamed urlOf repos) (hc : cacheCoherent urlOf net c0) :
    (∀ (k : String) (m : LangMap),
      alookup k (aggregateRun net wf repos c0).cache = some m →
      alookup k c0 = some m ∨
        ∃ r ∈ repos, qualifies wf r = true ∧ r.full_name = k ∧
          net r.languages_url = some m) ∧
    ((aggregateRun net wf repos c0).cacheUpdated = false ↔
      (aggregateRun net wf repos c0).cache = c0) ∧
    (∀ r ∈ repos, qualifies wf r = true → net (urlOf r.full_name) = none →
      alookup r.full_name (aggregateRun net wf repos c0).cache = none ∧
      r.full_name ∈
        (aggregateRun net wf repos
          ((aggregateRun net wf repos c0).cache)).fetched) := by
  refine ⟨?_, ?_, ?_⟩
  · exact fun k m h => aggregate_cache_entries repos ⟨[], c0, false, []⟩ k m h
  · obtain ⟨d, hd, hu⟩ := aggregate_cache_growth net wf repos ⟨[], c0, false, []⟩
    unfold aggregateRun
    rw [hd, hu]
    constructor
    · intro h
      have : d = [] := by
        cases d with
        | nil => rfl
        | cons x xs => simp at h
      rw [this, List.append_nil]
    · intro h
      have : d = [] := by
        have := List.append_cancel_left (h.trans (List.append_nil c0).symm)
        exact this
      rw [this]
      simp
  · intro r hr hq hnet
    have hcoh1 : cacheCoherent urlOf net (aggregateRun net wf repos c0).cache :=
      aggregate_coherent hc hw
    have hnone : alookup r.full_name (aggregateRun net wf repos c0).cache = none := by
      cases h : alookup r.full_name (aggregateRun net wf repos c0).cache with
      | none => rfl
      | some m =>
        have := cacheCoherent_lookup hcoh1 h
        rw [this] at hnet
        cases hnet
    refine ⟨hnone, ?_⟩
    exact aggregate_attempts_fetch repos
      ⟨[], (aggregateRun net wf repos c0).cache, false, []⟩ hw hcoh1 r hr hq hnet

/-- C9: the detailed table has one row per qualifying repository (in
order) and one cell per top-N language after the repository name,
each cell the byte count or `0` as a string; every column's width is
the maximum length over its header cell and data cells; every line
left-justifies each cell to its column width (so each padded cell
has exactly the column width), cells are joined by the fixed
delimiter `" | "`, and a dashed separator row (dashes joined by
`"-+-"`) sits between the header line and the data lines. -/
theorem c9_table_layout (repos : List Repo) (langs : List (String × LangMap))
    (topNames : List String) (wf : Bool)
    (hqual : repos.filter (qualifies wf) ≠ []) :
    ∀ (header : List String) (rows : List (List String)) (ws : List Nat),
      header = tableHeader topNames →
      rows = tableRows repos langs topNames wf →
      ws = colWidths header rows →
      (rows = (repos.filter (qualifies wf)).map (tableRow langs topNames) ∧
       rows.length = (repos.filter (qualifies wf)).length ∧
       (∀ r ∈ repos.filter (qualifies wf),
         tableRow langs topNames r =
           r.name :: topNames.map (fun lang =>
             toString ((alookup lang ((alookup r.full_name langs).getD [])).getD 0))) ∧
       (∀ row ∈ rows, row.length = header.length) ∧
       ws.length = header.length ∧
       (∀ i, i < header.length →
         ws.getD i 0 = max ((header.map String.length).getD i 0)
           ((rows.map (fun row => (row.map String.length).getD i 0)).foldr max 0)) ∧
       build_language_table repos langs topNames wf =
         String.intercalate "\n"
           (tableLine ws header :: tableSeparator ws :: rows.map (tableLine ws)) ∧
       (∀ cells : List String, tableLine ws cells =
         String.intercalate " | "
           (List.zipWith (fun c w => pyLjust c w) cells ws)) ∧
       (∀ cells ∈ header :: rows, ∀ i, i < header.length →
         (pyLjust (cells.getD i "") (ws.getD i 0)).length = ws.getD i 0) ∧
       tableSeparator ws =
         String.intercalate "-+-"
           (ws.map (fun w => String.mk (List.replicate w '-')))) := by
  intro header rows ws hh hrw hws
  subst hh
  subst hrw
  subst hws
  have hrowlen : ∀ row ∈ tableRows repos langs topNames wf,
      row.length = (tableHeader topNames).length := by
    intro row hrow
    unfold tableRows at hrow
    obtain ⟨r, _, rfl⟩ := List.mem_map.mp hrow
    simp [tableRow, tableHeader]
  have hinitlen : ((tableHeader topNames).map String.length).length =
      (tableHeader topNames).length := List.length_map _ _
  have hlens : ∀ row ∈ tableRows repos langs topNames wf,
      row.length = ((tableHeader topNames).map String.length).length :=
    fun row hr => (hrowlen row hr).trans hinitlen.symm
  have hwslen : (colWidths (tableHeader topNames)
      (tableRows repos langs topNames wf)).length = (tableHeader topNames).length := by
    unfold colWidths
    rw [foldl_updWidths_length _ _ hlens, hinitlen]
  have hwsd : ∀ i, i < (tableHeader topNames).length →
      (colWidths (tableHeader topNames) (tableRows repos langs topNames wf)).getD i 0 =
        max (((tableHeader topNames).map String.length).getD i 0)
          (((tableRows repos langs topNames wf).map
            (fun row => (row.map String.length).getD i 0)).foldr max 0) := by
    intro i hi
    unfold colWidths
    rw [foldl_updWidths_getD _ _ hlens i (by rw [hinitlen]; exact hi)]
  have hnil : (tableRows repos langs topNames wf).isEmpty = false := by
    cases h : tableRows repos langs topNames wf with
    | nil =>
      exfalso
      apply hqual
      unfold tableRows at h
      exact List.map_eq_nil_iff.mp h
    | cons a l => rfl
  refine ⟨rfl, ?_, ?_, hrowlen, hwslen, hwsd, ?_, ?_, ?_, rfl⟩
  · unfold tableRows
    rw [List.length_map]
  · intro r _
    rfl
  · unfold build_language_table
    simp only [hnil]
    rfl
  · intro cells
    rfl
  · intro cells hcells i hi
    rw [pyLjust_length]
    apply max_eq_right
    rcases List.mem_cons.mp hcells with rfl | hcells
    · rw [← getD_map_length (tableHeader topNames) i hi, hwsd i hi]
      exact le_max_left _ _
    · have hcl : i < cells.length := by rw [hrowlen cells hcells]; exact hi
      rw [← getD_map_length cells i hcl, hwsd i hi]
      refine le_trans ?_ (le_max_right _ _)
      exact le_foldr_max _ _
        (List.mem_map_of_mem (fun row => (row.map String.length).getD i 0) hcells)

/-! ## Witnesses: the claim theorems instantiated on concrete data -/

/-- C2 witness: on the documentation scenario, aggregating over the
populated coherent cache yields the same totals as fetching live. -/
theorem c2_totals_cache_oblivious_witness :
    cacheCoherent urlOfEx netEx cacheEx ∧
    wellNamed urlOfEx [repoA, repoB] ∧
    (aggregateRun netEx false [repoA, repoB] cacheEx).totals =
      (aggregateRun netEx false [repoA, repoB] []).totals :=
  ⟨by decide, by decide,
    (c2_totals_cache_oblivious urlOfEx netEx false [repoA, repoB] cacheEx
      (by decide) (by decide)).1⟩

/-- C3 witness: ranking `top_n = 2` over three languages (two tied)
returns two entries in non-increasing order. -/
theorem c3_ranking_order_witness :
    ([("Go", 3), ("Py", 3), ("C", 1)] : List (String × Nat)) ≠ [] ∧
    (most_common 2 [("Go", 3), ("Py", 3), ("C", 1)]).length =
      min 2 [("Go", 3), ("Py", 3), ("C", 1)].length ∧
    List.Sorted (fun a b : String × Nat => b.2 ≤ a.2)
      (most_common 2 [("Go", 3), ("Py", 3), ("C", 1)]) :=
  ⟨by decide,
   (c3_ranking_order [("Go", 3), ("Py", 3), ("C", 1)] 2 (by decide)).1,
   (c3_ranking_order [("Go", 3), ("Py", 3), ("C", 1)] 2 (by decide)).2.1⟩

/-- C4 witness: on totals Go 300 / Python 100 the full percentage sum
is 100 and the displayed top-10 sum is at most 100. -/
theorem c4_percentages_witness :
    0 < totalBytes [("Go", 300), ("Python", 100)] ∧
    ([("Go", 300), ("Python", 100)].map
      (fun x => percentage x.2 (totalBytes [("Go", 300), ("Python", 100)]))).sum =
      100 ∧
    ((most_common 10 [("Go", 300), ("Python", 100)]).map
      (fun x => percentage x.2 (totalBytes [("Go", 300), ("Python", 100)]))).sum ≤
      100 :=
  ⟨by decide,
   (c4_percentages [("Go", 300), ("Python", 100)] 10 (by decide) (by decide)).2.1,
   (c4_percentages [("Go", 300), ("Python", 100)] 10 (by decide) (by decide)).2.2⟩

/-- C5 witness: the fork `u/b` drops out of the aggregation when
forks are excluded. -/
theorem c5_fork_filtering_witness :
    repoB.fork = true ∧
    aggregateRun netEx false ([] ++ repoB :: [repoA]) [] =
      aggregateRun netEx false ([] ++ [repoA]) [] ∧
    qualifies false repoB = false :=
  ⟨rfl,
   (c5_fork_filtering netEx [] [repoA] repoB [] [] ["Go"] rfl).1,
   (c5_fork_filtering netEx [] [repoA] repoB [] [] ["Go"] rfl).2.2.1⟩

/-- C6 witness: with no snapshot, one non-empty page (page 1) and an
empty page 2, the lister returns page 1's repositories, having
requested pages 1 and 2, and writes today's cache. -/
theorem c6_repository_listing_witness :
    cachedRepos none "2026-10-12" = [] ∧
    listRepositories pagesNetEx "u" 2 none "2026-10-12" =
      (.ok ((List.range' 1 1).flatMap pageContentEx),
       (List.range' 1 2).map (reposPageUrl "u"),
       some ("2026-10-12", (List.range' 1 1).flatMap pageContentEx)) :=
  ⟨rfl,
   (c6_repository_listing pagesNetEx "u" "2026-10-12" 2 none pageContentEx 1
     rfl (by decide) (by decide) (by decide)).2⟩

/-- C7 witness: a failing first page aborts the listing with a
transport error and no cache write. -/
theorem c7_listing_transport_error_fatal_witness :
    cachedRepos none "2026-10-12" = [] ∧
    listRepositories failNetEx "u" 1 none "2026-10-12" =
      (.httpError, (List.range' 1 1).map (reposPageUrl "u"), none) ∧
    (List.range' 1 1).Nodup :=
  ⟨rfl,
   (c7_listing_transport_error_fatal failNetEx "u" "2026-10-12" 1 none
     pageContentEx 0 rfl (by decide) (by decide) (by decide)).1,
   (c7_listing_transport_error_fatal failNetEx "u" "2026-10-12" 1 none
     pageContentEx 0 rfl (by decide) (by decide) (by decide)).2⟩

/-- C8 witness: the failing repository `u/c` leaves the totals of the
run without it unchanged. -/
theorem c8_language_fetch_failure_nonfatal_witness :
    qualifies false repoC = true ∧
    netEx repoC.languages_url = none ∧
    (aggregateRun netEx false ([repoA] ++ repoC :: []) []).totals =
      (aggregateRun netEx false ([repoA] ++ []) []).totals ∧
    repoC.full_name ∈ (aggregateRun netEx false ([repoA] ++ repoC :: []) []).fetched :=
  ⟨by decide, by decide,
   (c8_language_fetch_failure_nonfatal netEx false [repoA] [] repoC []
     (by decide) (by decide) (by decide) (by decide)).1,
   (c8_language_fetch_failure_nonfatal netEx false [repoA] [] repoC []
     (by decide) (by decide) (by decide) (by decide)).2.2.2⟩

/-- C9 witness: on the documentation scenario the table has one row
per qualifying repository and one width per header column. -/
theorem c9_table_layout_witness :
    ([repoA, repoB].filter (qualifies false)) ≠ [] ∧
    (tableRows [repoA, repoB] cacheEx ["Go", "Python"] false).length =
      ([repoA, repoB].filter (qualifies false)).length ∧
    (colWidths (tableHeader ["Go", "Python"])
      (tableRows [repoA, repoB] cacheEx ["Go", "Python"] false)).length =
      (tableHeader ["Go", "Python"]).length :=
  ⟨by decide,
   (c9_table_layout [repoA, repoB] cacheEx ["Go", "Python"] false (by decide)
     _ _ _ rfl rfl rfl).2.1,
   (c9_table_layout [repoA, repoB] cacheEx ["Go", "Python"] false (by decide)
     _ _ _ rfl rfl rfl).2.2.2.2.1⟩

/-- C10 witness: the failed repository `u/c` is absent from the cache
a run produces. -/
theorem c10_cache_gains_only_successes_witness :
    wellNamed urlOfEx [repoA, repoC] ∧
    cacheCoherent urlOfEx netEx [] ∧
    alookup "u/c" (aggregateRun netEx false [repoA, repoC] []).cache = none :=
  ⟨by decide, by decide,
   ((c10_cache_gains_only_successes urlOfEx netEx false [repoA, repoC] []
     (by decide) (by decide)).2.2 repoC (by decide) (by decide) (by decide)).1⟩

end GithubStats
